import Mathlib

/-!
Shallow embedding of the Game of Life engine from `src/main.rs`
(an unbounded-plane cellular automaton built on a sparse hash map).

The Rust `HashMap<(i64, i64), CellState>` is modelled by an association
list with pairwise distinct keys (`KeysNodup`); hash-map iteration order
is unspecified in Rust, so theorems that depend on iteration quantify
over permutations of the entry list.  Machine integers `i64` are
modelled by `ℤ` (with a separate `wrap64` model, arithmetic mod 2^64,
where overflow is at issue) and the `f32` clock accumulator by `ℚ`.
-/

namespace Life

inductive CellState where
  | On
  | Off
  deriving DecidableEq

abbrev Coord := ℤ × ℤ

abbrev CellMap := List (Coord × CellState)

abbrev ScoreMap := List (Coord × ℤ)

/-- Lookup in an association list, mirroring `HashMap::get`. -/
def lookupKey {β : Type} (k : Coord) : List (Coord × β) → Option β
  | [] => none
  | e :: rest => if e.1 = k then some e.2 else lookupKey k rest

/-- Removal of a key, mirroring `HashMap::remove` (with distinct keys
at most one entry can match). -/
def eraseKey {β : Type} (k : Coord) : List (Coord × β) → List (Coord × β)
  | [] => []
  | e :: rest => if e.1 = k then eraseKey k rest else e :: eraseKey k rest

/-- Insert-or-replace, mirroring `HashMap::insert`. -/
def insertKey {β : Type} (k : Coord) (v : β) (m : List (Coord × β)) : List (Coord × β) :=
  (k, v) :: eraseKey k m

/-- The well-formedness invariant of the hash-map model: keys are
pairwise distinct. -/
def KeysNodup {β : Type} (m : List (Coord × β)) : Prop :=
  (m.map Prod.fst).Nodup

instance {β : Type} (m : List (Coord × β)) : Decidable (KeysNodup m) :=
  inferInstanceAs (Decidable (m.map Prod.fst).Nodup)

/-- The eight Moore-neighbourhood offsets, in the order the scoring code
in `simulate` visits them (lines 296-350 of `main.rs`). -/
def mooreOffsets : List Coord :=
  [(-1, -1), (0, -1), (1, -1), (-1, 0), (1, 0), (-1, 1), (0, 1), (1, 1)]

/-- The Moore neighbourhood of a coordinate. -/
def moore (p : Coord) : List Coord :=
  mooreOffsets.map (fun d => (p.1 + d.1, p.2 + d.2))

/-- Whether a coordinate is Alive: present in the store with state `On`. -/
def isOnB (cells : CellMap) (p : Coord) : Bool :=
  match lookupKey p cells with
  | some CellState.On => true
  | _ => false

def isOn (cells : CellMap) (p : Coord) : Prop :=
  isOnB cells p = true

instance (cells : CellMap) (p : Coord) : Decidable (isOn cells p) :=
  inferInstanceAs (Decidable (isOnB cells p = true))

/-- Number of Alive cells among the eight Moore neighbours. -/
def liveNeighborCount (cells : CellMap) (p : Coord) : ℕ :=
  ((moore p).filter (fun q => isOnB cells q)).length

/-- One `+= 1`-or-`insert 1` on the scoring map, mirroring the repeated
`get_mut` / `insert` blocks in `simulate`. -/
def bump (m : ScoreMap) (k : Coord) : ScoreMap :=
  match lookupKey k m with
  | none => insertKey k 1 m
  | some s => insertKey k (s + 1) m

/-- Processing of one grid entry by the scoring loop of `simulate`: an
`On` cell bumps each of its eight Moore neighbours and then ensures its
own coordinate has an entry (inserting `0` if absent); other entries are
skipped. -/
def scoreCell (m : ScoreMap) (e : Coord × CellState) : ScoreMap :=
  if e.2 = CellState.On then
    let m2 := mooreOffsets.foldl (fun acc d => bump acc (e.1.1 + d.1, e.1.2 + d.2)) m
    match lookupKey e.1 m2 with
    | none => insertKey e.1 0 m2
    | some _ => m2
  else m

/-- The transient `neighbourhood_score` map built by the first loop of
`simulate`, processing the grid entries in the order of the given list. -/
def buildScores (cells : CellMap) : ScoreMap :=
  cells.foldl scoreCell []

/-- One iteration of the rule-application loop of `simulate` (lines
358-369): reads the current store at the scored coordinate and inserts
`On` or removes in place. -/
def applyRule (cells : CellMap) (e : Coord × ℤ) : CellMap :=
  let cell := lookupKey e.1 cells
  if (cell = none ∨ cell = some CellState.Off) ∧ e.2 = 3 then
    insertKey e.1 CellState.On cells
  else if cell = some CellState.On ∧ (e.2 = 2 ∨ e.2 = 3) then
    insertKey e.1 CellState.On cells
  else if cell.isSome then
    eraseKey e.1 cells
  else
    cells

/-- One generation step: build the scoring map, then apply the rule at
every scored coordinate, mutating the store in place. -/
def stepCells (cells : CellMap) : CellMap :=
  (buildScores cells).foldl applyRule cells

/-- `set_alive` of the spec: the left-click branch of
`detect_mouse_click` does `cells.insert(coord, CellState::On)`. -/
def set_alive (cells : CellMap) (c : Coord) : CellMap :=
  insertKey c CellState.On cells

/-- `set_dead` of the spec: the right-click branch of
`detect_mouse_click` does `cells.remove(&coord)`. -/
def set_dead (cells : CellMap) (c : Coord) : CellMap :=
  eraseKey c cells

/-- The store never holds a `Off` entry (the sparsity invariant). -/
def OnlyOn (cells : CellMap) : Prop :=
  ∀ e ∈ cells, e.2 = CellState.On

instance (cells : CellMap) : Decidable (OnlyOn cells) :=
  inferInstanceAs (Decidable (∀ e ∈ cells, e.2 = CellState.On))

/-- The `World` component of `main.rs` (its engine fields). -/
structure World where
  cells : CellMap
  simulating : Bool
  time_since_tick : ℚ

/-- Whether one call of the `simulate` system executes a generation
step: accumulated time strictly exceeds `0.1` and the clock is running. -/
def ticked (w : World) (delta : ℚ) : Bool :=
  decide (1 / 10 < w.time_since_tick + delta) && w.simulating

/-- The `simulate` system of `main.rs` for one frame: add the frame's
elapsed time, and when the threshold is crossed while running, reset the
accumulator and advance one generation. -/
def simulate (w : World) (delta : ℚ) : World :=
  let w1 : World := ⟨w.cells, w.simulating, w.time_since_tick + delta⟩
  if 1 / 10 < w1.time_since_tick ∧ w1.simulating then
    ⟨stepCells w1.cells, w1.simulating, 0⟩
  else
    w1

/-- One frame of the app loop together with a count of executed steps. -/
def frame (p : World × ℕ) (delta : ℚ) : World × ℕ :=
  (simulate p.1 delta, p.2 + if ticked p.1 delta then 1 else 0)

/-- A sequence of frames with the given elapsed durations, returning the
final world and the number of `step` executions. -/
def runFrames (w : World) (ds : List ℚ) : World × ℕ :=
  ds.foldl frame (w, 0)

/-- Two's-complement wrap-around of 64-bit signed arithmetic: the value
an `i64` addition produces, as an integer mod 2^64 in
`[-2^63, 2^63)`. -/
def wrap64 (n : ℤ) : ℤ :=
  (n + 2 ^ 63) % 2 ^ 64 - 2 ^ 63

/-- The guard of the rule-application branches of `simulate` that
resolve a scored coordinate to Alive, as a function of the pre-step
state and the score. -/
def lifeRuleB (cell : Option CellState) (score : ℤ) : Bool :=
  if (cell = none ∨ cell = some CellState.Off) ∧ score = 3 then true
  else if cell = some CellState.On ∧ (score = 2 ∨ score = 3) then true
  else false

/-- The effect of `applyRule` on the store at the scored coordinate
itself. -/
def ruleOut (cell : Option CellState) (score : ℤ) : Option CellState :=
  if lifeRuleB cell score then some CellState.On else none

/-- Modelled from the spec (step 3 and 4 of the generation-step
algorithm in §4.1): a reference `step` that fully builds the
next-generation set from the pre-step grid — every scored coordinate
that the Life rule resolves to Alive, and nothing else — and swaps it in
at the end, instead of editing the store in place. -/
def specStep (cells : CellMap) : CellMap :=
  ((buildScores cells).filter
      (fun e => lifeRuleB (lookupKey e.1 cells) e.2)).map
    (fun e => (e.1, CellState.On))

/-- Number of increments the scoring loop sends to coordinate `p` while
processing the entries of `l`: one for each `On` entry whose Moore
neighbourhood contains `p`. -/
def incs (l : CellMap) (p : Coord) : ℕ :=
  l.countP (fun e => decide (e.2 = CellState.On) && decide (p ∈ moore e.1))

/-- The blinker fixture of the spec: a horizontal row of three Alive
cells at (0,0), (1,0), (2,0). -/
def blinkerH : CellMap :=
  [((0, 0), CellState.On), ((1, 0), CellState.On), ((2, 0), CellState.On)]

/-- Adding `n` increments to an optional counter entry. -/
def optAdd (o : Option ℤ) (n : ℕ) : Option ℤ :=
  if n = 0 then o else some (o.getD 0 + n)

/-- Occurrences of a coordinate in a list. -/
def cnt (ks : List Coord) (p : Coord) : ℕ :=
  ks.countP (fun x => decide (x = p))

/-- The value the scoring loop leaves at coordinate `p` after
processing the entries of `l`, starting from an accumulator holding
`o` at `p`. -/
def scoreVal (l : CellMap) (p : Coord) (o : Option ℤ) : Option ℤ :=
  match o with
  | some s => some (s + (incs l p : ℤ))
  | none =>
    if incs l p ≠ 0 then some ((incs l p : ℤ))
    else if (p, CellState.On) ∈ l then some 0
    else none

/-! ### Basic association-list lemmas -/

theorem lookup_erase {β : Type} (k p : Coord) (m : List (Coord × β)) :
    lookupKey p (eraseKey k m) = if k = p then none else lookupKey p m := by
  induction m with
  | nil => simp [eraseKey, lookupKey]
  | cons e rest ih =>
    show lookupKey p (if e.1 = k then eraseKey k rest else e :: eraseKey k rest) = _
    by_cases hek : e.1 = k
    · rw [if_pos hek, ih]
      by_cases hkp : k = p
      · simp [hkp]
      · have hep : ¬ e.1 = p := fun h => hkp (hek.symm.trans h)
        rw [if_neg hkp, if_neg hkp]
        simp [lookupKey, hep]
    · rw [if_neg hek]
      by_cases hep : e.1 = p
      · have hkp : ¬ k = p := fun h => hek (hep.trans h.symm)
        simp [lookupKey, hep, hkp]
      · simp [lookupKey, hep, ih]

theorem lookup_insert {β : Type} (k p : Coord) (v : β) (m : List (Coord × β)) :
    lookupKey p (insertKey k v m) = if k = p then some v else lookupKey p m := by
  by_cases hkp : k = p <;> simp [insertKey, lookupKey, hkp, lookup_erase]

theorem lookup_none_of_not_mem_keys {β : Type} {p : Coord} {m : List (Coord × β)}
    (h : p ∉ m.map Prod.fst) : lookupKey p m = none := by
  induction m with
  | nil => rfl
  | cons e rest ih =>
    simp only [List.map_cons, List.mem_cons, not_or] at h
    have hep : ¬ e.1 = p := fun he => h.1 he.symm
    simp [lookupKey, hep, ih h.2]

theorem mem_of_lookup {β : Type} {p : Coord} {v : β} {m : List (Coord × β)}
    (h : lookupKey p m = some v) : (p, v) ∈ m := by
  induction m with
  | nil => simp [lookupKey] at h
  | cons e rest ih =>
    obtain ⟨e1, e2⟩ := e
    by_cases hep : e1 = p
    · subst hep
      simp only [lookupKey, if_pos] at h
      cases h
      exact List.mem_cons_self _ _
    · simp only [lookupKey, hep, if_false] at h
      exact List.mem_cons_of_mem _ (ih h)

theorem erase_of_lookup_none {β : Type} {k : Coord} {m : List (Coord × β)}
    (h : lookupKey k m = none) : eraseKey k m = m := by
  induction m with
  | nil => rfl
  | cons e rest ih =>
    by_cases hek : e.1 = k
    · simp [lookupKey, hek] at h
    · simp only [lookupKey, hek, if_false] at h
      simp [eraseKey, hek, ih h]

theorem erase_erase {β : Type} (k : Coord) (m : List (Coord × β)) :
    eraseKey k (eraseKey k m) = eraseKey k m := by
  apply erase_of_lookup_none
  simp [lookup_erase]

theorem not_mem_keys_erase {β : Type} (k : Coord) (m : List (Coord × β)) :
    k ∉ (eraseKey k m).map Prod.fst := by
  induction m with
  | nil => simp [eraseKey]
  | cons e rest ih =>
    by_cases hek : e.1 = k
    · simpa [eraseKey, hek] using ih
    · simp only [eraseKey, hek, if_false, List.map_cons, List.mem_cons, not_or]
      exact ⟨fun h => hek h.symm, ih⟩

theorem keys_erase_sublist {β : Type} (k : Coord) (m : List (Coord × β)) :
    ((eraseKey k m).map Prod.fst).Sublist (m.map Prod.fst) := by
  induction m with
  | nil => simp [eraseKey]
  | cons e rest ih =>
    by_cases hek : e.1 = k
    · simp only [eraseKey, hek, if_pos, List.map_cons]
      exact ih.trans (List.sublist_cons_self _ _)
    · simpa [eraseKey, hek] using ih.cons₂ e.1

theorem keysNodup_erase {β : Type} {k : Coord} {m : List (Coord × β)}
    (h : KeysNodup m) : KeysNodup (eraseKey k m) :=
  List.Nodup.sublist (keys_erase_sublist k m) h

theorem keysNodup_insert {β : Type} {k : Coord} {v : β} {m : List (Coord × β)}
    (h : KeysNodup m) : KeysNodup (insertKey k v m) := by
  unfold KeysNodup insertKey
  simp only [List.map_cons, List.nodup_cons]
  exact ⟨not_mem_keys_erase k m, keysNodup_erase h⟩

/-! ### Moore-neighbourhood geometry -/

theorem moore_nodup (p : Coord) : (moore p).Nodup := by
  apply List.Nodup.map_on
  · intro x _ y _ hxy
    obtain ⟨x1, x2⟩ := x
    obtain ⟨y1, y2⟩ := y
    simp only [Prod.mk.injEq] at hxy ⊢
    omega
  · decide

theorem self_not_mem_moore (p : Coord) : p ∉ moore p := by
  intro h
  simp only [moore, List.mem_map] at h
  obtain ⟨d, hd, heq⟩ := h
  have hd0 : d = ((0 : ℤ), (0 : ℤ)) := by
    obtain ⟨p1, p2⟩ := p
    obtain ⟨d1, d2⟩ := d
    simp only [Prod.mk.injEq] at heq ⊢
    omega
  rw [hd0] at hd
  exact absurd hd (by decide)

theorem mem_moore_symm {p q : Coord} (h : p ∈ moore q) : q ∈ moore p := by
  simp only [moore, List.mem_map] at h ⊢
  obtain ⟨d, hd, heq⟩ := h
  have hneg : ((-d.1, -d.2) : Coord) ∈ mooreOffsets := by
    fin_cases hd <;> decide
  refine ⟨(-d.1, -d.2), hneg, ?_⟩
  obtain ⟨p1, p2⟩ := p
  obtain ⟨q1, q2⟩ := q
  simp only [Prod.mk.injEq] at heq ⊢
  omega

theorem mem_moore_comm (p q : Coord) : p ∈ moore q ↔ q ∈ moore p :=
  ⟨mem_moore_symm, mem_moore_symm⟩

theorem cnt_nil (p : Coord) : cnt [] p = 0 := rfl

theorem cnt_cons (k p : Coord) (ks : List Coord) :
    cnt (k :: ks) p = cnt ks p + if k = p then 1 else 0 := by
  unfold cnt
  rw [List.countP_cons]
  by_cases h : k = p <;> simp [h]

theorem cnt_of_nodup {L : List Coord} (h : L.Nodup) (p : Coord) :
    cnt L p = if p ∈ L then 1 else 0 := by
  induction L with
  | nil => simp [cnt_nil]
  | cons a L ih =>
    rw [List.nodup_cons] at h
    rw [cnt_cons]
    by_cases hap : a = p
    · subst hap
      have hz : cnt L a = 0 := by
        unfold cnt
        rw [List.countP_eq_zero]
        intro x hx
        simp only [decide_eq_true_eq]
        intro hxa
        exact h.1 (hxa ▸ hx)
      simp [hz]
    · have hpa : ¬ p = a := fun h2 => hap h2.symm
      rw [ih h.2, if_neg hap]
      simp [List.mem_cons, hpa]

theorem cnt_moore (p q : Coord) :
    cnt (moore q) p = if p ∈ moore q then 1 else 0 :=
  cnt_of_nodup (moore_nodup q) p

/-! ### The scoring accumulation -/

theorem lookup_bump (k p : Coord) (m : ScoreMap) :
    lookupKey p (bump m k) =
      if k = p then some ((lookupKey p m).getD 0 + 1) else lookupKey p m := by
  unfold bump
  by_cases hkp : k = p
  · subst hkp
    cases hl : lookupKey k m <;> simp [hl, lookup_insert]
  · cases hl : lookupKey k m <;> simp [hl, lookup_insert, hkp]

theorem lookup_foldl_bump (ks : List Coord) (p : Coord) (m : ScoreMap) :
    lookupKey p (ks.foldl bump m) = optAdd (lookupKey p m) (cnt ks p) := by
  induction ks generalizing m with
  | nil => simp [optAdd, cnt_nil]
  | cons k ks ih =>
    rw [List.foldl_cons, ih, lookup_bump, cnt_cons]
    by_cases hkp : k = p
    · rw [if_pos hkp, if_pos hkp]
      unfold optAdd
      by_cases hz : cnt ks p = 0
      · simp [hz]
      · simp only [hz, if_false, Nat.add_eq_zero, and_false, if_false, Option.getD_some]
        congr 1
        push_cast
        ring
    · rw [if_neg hkp, if_neg hkp]
      ring_nf

theorem lookup_scoreCell (m : ScoreMap) (e : Coord × CellState) (p : Coord) :
    lookupKey p (scoreCell m e) =
      if e.2 = CellState.On then
        if p ∈ moore e.1 then some ((lookupKey p m).getD 0 + 1)
        else if p = e.1 ∧ lookupKey p m = none then some 0
        else lookupKey p m
      else lookupKey p m := by
  unfold scoreCell
  by_cases hOn : e.2 = CellState.On
  · rw [if_pos hOn, if_pos hOn]
    have hfold : mooreOffsets.foldl (fun acc d => bump acc (e.1.1 + d.1, e.1.2 + d.2)) m =
        (moore e.1).foldl bump m := by
      rw [moore, List.foldl_map]
    rw [hfold]
    have hm2 : ∀ q, lookupKey q ((moore e.1).foldl bump m) =
        optAdd (lookupKey q m) (cnt (moore e.1) q) := fun q => lookup_foldl_bump _ _ _
    have hself : lookupKey e.1 ((moore e.1).foldl bump m) = lookupKey e.1 m := by
      rw [hm2, cnt_moore, if_neg (self_not_mem_moore e.1)]
      rfl
    by_cases hpm : p ∈ moore e.1
    · rw [if_pos hpm]
      have hpe : ¬ p = e.1 := fun h => self_not_mem_moore e.1 (h ▸ hpm)
      have hp2 : lookupKey p ((moore e.1).foldl bump m) =
          some ((lookupKey p m).getD 0 + 1) := by
        rw [hm2, cnt_moore, if_pos hpm]
        simp [optAdd]
      cases hsel : lookupKey e.1 ((moore e.1).foldl bump m) with
      | none =>
        simp only [hsel]
        rw [lookup_insert, if_neg (fun h => hpe h.symm)]
        exact hp2
      | some s =>
        simp only [hsel]
        exact hp2
    · rw [if_neg hpm]
      have hp2 : lookupKey p ((moore e.1).foldl bump m) = lookupKey p m := by
        rw [hm2, cnt_moore, if_neg hpm]
        rfl
      by_cases hpe : p = e.1
      · have hpm2 : lookupKey e.1 m = lookupKey p m := by rw [hpe]
        cases hpmm : lookupKey p m with
        | none =>
          have hsel : lookupKey e.1 ((moore e.1).foldl bump m) = none := by
            rw [hself, hpm2, hpmm]
          simp only [hsel]
          rw [lookup_insert, if_pos hpe.symm, if_pos ⟨hpe, trivial⟩]
        | some s =>
          have hsel : lookupKey e.1 ((moore e.1).foldl bump m) = some s := by
            rw [hself, hpm2, hpmm]
          simp only [hsel]
          rw [if_neg (fun h => Option.noConfusion h.2)]
          exact hp2.trans hpmm
      · have hcond : ¬ (p = e.1 ∧ lookupKey p m = none) := fun h => hpe h.1
        rw [if_neg hcond]
        cases hsel : lookupKey e.1 ((moore e.1).foldl bump m) with
        | none =>
          simp only [hsel]
          rw [lookup_insert, if_neg (fun h => hpe h.symm)]
          exact hp2
        | some s =>
          simp only [hsel]
          exact hp2
  · rw [if_neg hOn, if_neg hOn]

theorem lookup_foldl_scoreCell (l : CellMap) (m : ScoreMap) (p : Coord) :
    lookupKey p (l.foldl scoreCell m) = scoreVal l p (lookupKey p m) := by
  induction l generalizing m with
  | nil =>
    cases h : lookupKey p m <;> simp [scoreVal, incs, h]
  | cons e t ih =>
    rw [List.foldl_cons, ih, lookup_scoreCell]
    have hincs : incs (e :: t) p =
        incs t p + if e.2 = CellState.On ∧ p ∈ moore e.1 then 1 else 0 := by
      unfold incs
      rw [List.countP_cons]
      by_cases h1 : e.2 = CellState.On <;> by_cases h2 : p ∈ moore e.1 <;>
        simp [h1, h2]
    by_cases hOn : e.2 = CellState.On
    · rw [if_pos hOn]
      by_cases hpm : p ∈ moore e.1
      · rw [if_pos hpm]
        have h1 : incs (e :: t) p = incs t p + 1 := by
          rw [hincs, if_pos ⟨hOn, hpm⟩]
        cases hpmm : lookupKey p m with
        | none =>
          simp only [scoreVal, Option.getD_none, h1]
          rw [if_pos (by omega : incs t p + 1 ≠ 0)]
          congr 1
          push_cast
          ring
        | some s =>
          simp only [scoreVal, Option.getD_some, h1]
          congr 1
          push_cast
          ring
      · rw [if_neg hpm]
        have h1 : incs (e :: t) p = incs t p := by
          rw [hincs, if_neg (fun h => hpm h.2), Nat.add_zero]
        by_cases hcond : p = e.1 ∧ lookupKey p m = none
        · rw [if_pos hcond, hcond.2]
          have hmem : (p, CellState.On) ∈ e :: t := by
            have he : e = (p, CellState.On) := by
              obtain ⟨e1, e2⟩ := e
              obtain ⟨hc1, _⟩ := hcond
              simp only at hc1 hOn
              rw [hc1, hOn]
            rw [he]
            exact List.mem_cons_self _ _
          simp only [scoreVal, h1]
          by_cases hz : incs t p = 0
          · rw [hz]
            simp only [ne_eq, not_true_eq_false, if_false, Nat.cast_zero, if_pos hmem]
            simp
          · rw [if_pos hz]
            simp
        · rw [if_neg hcond]
          cases hpmm : lookupKey p m with
          | none =>
            simp only [scoreVal, h1]
            have hmem : ((p, CellState.On) ∈ e :: t) ↔ ((p, CellState.On) ∈ t) := by
              simp only [List.mem_cons, or_iff_right_iff_imp]
              intro h
              exact absurd (congrArg Prod.fst h) (fun hh => hcond ⟨hh, hpmm⟩)
            simp only [hmem]
          | some s =>
            simp only [scoreVal, h1]
    · rw [if_neg hOn]
      have h1 : incs (e :: t) p = incs t p := by
        rw [hincs, if_neg (fun h => hOn h.1), Nat.add_zero]
      cases hpmm : lookupKey p m with
      | none =>
        simp only [scoreVal, h1]
        have hmem : ((p, CellState.On) ∈ e :: t) ↔ ((p, CellState.On) ∈ t) := by
          simp only [List.mem_cons, or_iff_right_iff_imp]
          intro h
          exact absurd (congrArg Prod.snd h).symm (fun hh => hOn hh)
        simp only [hmem]
      | some s =>
        simp only [scoreVal, h1]

theorem lookup_buildScores (l : CellMap) (p : Coord) :
    lookupKey p (buildScores l) =
      if incs l p ≠ 0 then some ((incs l p : ℤ))
      else if (p, CellState.On) ∈ l then some 0
      else none := by
  rw [buildScores, lookup_foldl_scoreCell]
  rfl

/-! ### Distinct keys are preserved by the scoring loop -/

theorem keysNodup_bump {m : ScoreMap} (h : KeysNodup m) (k : Coord) :
    KeysNodup (bump m k) := by
  unfold bump
  cases lookupKey k m <;> exact keysNodup_insert h

theorem keysNodup_foldl_bump (ks : List Coord) {m : ScoreMap} (h : KeysNodup m) :
    KeysNodup (ks.foldl bump m) := by
  induction ks generalizing m with
  | nil => exact h
  | cons k ks ih => exact ih (keysNodup_bump h k)

theorem keysNodup_scoreCell {m : ScoreMap} (h : KeysNodup m) (e : Coord × CellState) :
    KeysNodup (scoreCell m e) := by
  unfold scoreCell
  by_cases hOn : e.2 = CellState.On
  · rw [if_pos hOn]
    have hfold : mooreOffsets.foldl (fun acc d => bump acc (e.1.1 + d.1, e.1.2 + d.2)) m =
        (moore e.1).foldl bump m := by
      rw [moore, List.foldl_map]
    rw [hfold]
    have h2 : KeysNodup ((moore e.1).foldl bump m) := keysNodup_foldl_bump _ h
    show KeysNodup
      (match lookupKey e.1 ((moore e.1).foldl bump m) with
      | none => insertKey e.1 0 ((moore e.1).foldl bump m)
      | some _ => (moore e.1).foldl bump m)
    cases lookupKey e.1 ((moore e.1).foldl bump m)
    · exact keysNodup_insert h2
    · exact h2
  · rw [if_neg hOn]
    exact h

theorem keysNodup_buildScores (l : CellMap) : KeysNodup (buildScores l) := by
  have H : ∀ (t : CellMap) (m : ScoreMap), KeysNodup m → KeysNodup (t.foldl scoreCell m) := by
    intro t
    induction t with
    | nil => exact fun m h => h
    | cons e t ih => exact fun m h => ih _ (keysNodup_scoreCell h e)
  exact H l [] (by simp [KeysNodup])

/-! ### The rule-application loop -/

theorem lookup_applyRule (cells : CellMap) (e : Coord × ℤ) (q : Coord) :
    lookupKey q (applyRule cells e) =
      if e.1 = q then ruleOut (lookupKey q cells) e.2 else lookupKey q cells := by
  by_cases hq : e.1 = q
  · subst hq
    rw [if_pos rfl]
    simp only [applyRule, ruleOut, lifeRuleB]
    cases hc : lookupKey e.1 cells with
    | none =>
      by_cases h3 : e.2 = 3
      · simp [hc, h3, lookup_insert]
      · simp [hc, h3]
    | some st =>
      cases st with
      | On =>
        by_cases h23 : e.2 = 2 ∨ e.2 = 3
        · simp [hc, h23, lookup_insert]
        · have h3 : ¬ e.2 = 3 := fun h => h23 (Or.inr h)
          have h2 : ¬ e.2 = 2 := fun h => h23 (Or.inl h)
          simp [hc, h2, h3, h23, lookup_erase]
      | Off =>
        by_cases h3 : e.2 = 3
        · simp [hc, h3, lookup_insert]
        · simp [hc, h3, lookup_erase]
  · rw [if_neg hq]
    simp only [applyRule]
    split_ifs <;> simp [lookup_insert, lookup_erase, hq]

theorem lookup_foldl_applyRule (s : ScoreMap) (cells : CellMap) (hs : KeysNodup s)
    (q : Coord) :
    lookupKey q (s.foldl applyRule cells) =
      match lookupKey q s with
      | some sc => ruleOut (lookupKey q cells) sc
      | none => lookupKey q cells := by
  induction s generalizing cells with
  | nil => rfl
  | cons e t ih =>
    have hkeys : e.1 ∉ t.map Prod.fst := by
      have := hs
      unfold KeysNodup at this
      rw [List.map_cons, List.nodup_cons] at this
      exact this.1
    have ht : KeysNodup t := by
      have := hs
      unfold KeysNodup at this
      rw [List.map_cons, List.nodup_cons] at this
      exact this.2
    rw [List.foldl_cons, ih _ ht]
    by_cases hq : e.1 = q
    · have hqt : lookupKey q t = none :=
        lookup_none_of_not_mem_keys (hq ▸ hkeys)
      rw [hqt]
      show lookupKey q (applyRule cells e) = _
      rw [lookup_applyRule, if_pos hq]
      have hqe : lookupKey q (e :: t) = some e.2 := by
        simp [lookupKey, hq]
      rw [hqe]
    · have hlook : lookupKey q (applyRule cells e) = lookupKey q cells := by
        rw [lookup_applyRule, if_neg hq]
      have hqe : lookupKey q (e :: t) = lookupKey q t := by
        simp [lookupKey, hq]
      rw [hqe, hlook]

/-! ### The accumulated score counts the Alive Moore neighbours -/

theorem countP_or_disjoint {α : Type} (f g : α → Bool) (l : List α)
    (h : ∀ x ∈ l, ¬(f x = true ∧ g x = true)) :
    l.countP (fun x => f x || g x) = l.countP f + l.countP g := by
  induction l with
  | nil => simp
  | cons a t ih =>
    rw [List.countP_cons, List.countP_cons, List.countP_cons,
      ih (fun x hx => h x (List.mem_cons_of_mem a hx))]
    have ha := h a (List.mem_cons_self a t)
    rcases Bool.eq_false_or_eq_true (f a) with hf | hf <;>
      rcases Bool.eq_false_or_eq_true (g a) with hg | hg <;>
      simp_all <;> omega

theorem countP_on_at (l : CellMap) (q : Coord) (h : KeysNodup l) :
    l.countP (fun e => decide (e.2 = CellState.On) && decide (e.1 = q)) =
      if isOnB l q then 1 else 0 := by
  induction l with
  | nil => simp [isOnB, lookupKey]
  | cons e t ih =>
    have hpair := h
    unfold KeysNodup at hpair
    rw [List.map_cons, List.nodup_cons] at hpair
    obtain ⟨hkeys, htn⟩ := hpair
    have ht : KeysNodup t := htn
    rw [List.countP_cons]
    by_cases hq : e.1 = q
    · have hz : t.countP (fun e => decide (e.2 = CellState.On) && decide (e.1 = q)) = 0 := by
        rw [List.countP_eq_zero]
        intro x hx
        simp only [Bool.and_eq_true, decide_eq_true_eq, not_and]
        intro _ hxq
        exact absurd (hxq ▸ List.mem_map_of_mem Prod.fst hx) (hq ▸ hkeys)
      cases hOn : e.2 with
      | On => simp [hz, isOnB, lookupKey, hq, hOn]
      | Off => simp [hz, isOnB, lookupKey, hq, hOn]
    · have hon : isOnB (e :: t) q = isOnB t q := by
        simp [isOnB, lookupKey, hq]
      rw [hon, ih ht]
      simp [hq]

theorem countP_on_mem (l : CellMap) (h : KeysNodup l) :
    ∀ (L : List Coord), L.Nodup →
      l.countP (fun e => decide (e.2 = CellState.On) && decide (e.1 ∈ L)) =
        L.countP (fun q => isOnB l q) := by
  intro L
  induction L with
  | nil =>
    intro _
    rw [List.countP_nil, List.countP_eq_zero]
    intro x _
    simp
  | cons a L ih =>
    intro hnd
    rw [List.nodup_cons] at hnd
    rw [List.countP_cons]
    have hsplit : l.countP (fun e => decide (e.2 = CellState.On) && decide (e.1 ∈ a :: L)) =
        l.countP (fun e => decide (e.2 = CellState.On) && decide (e.1 = a)) +
          l.countP (fun e => decide (e.2 = CellState.On) && decide (e.1 ∈ L)) := by
      have hcong : ∀ x ∈ l,
          (decide (x.2 = CellState.On) && decide (x.1 ∈ a :: L)) = true ↔
            ((decide (x.2 = CellState.On) && decide (x.1 = a)) ||
              (decide (x.2 = CellState.On) && decide (x.1 ∈ L))) = true := by
        intro x _
        by_cases h1 : x.2 = CellState.On <;> by_cases h2 : x.1 = a <;>
          by_cases h3 : x.1 ∈ L <;> simp [h1, h2, h3]
      rw [List.countP_congr hcong]
      apply countP_or_disjoint
      intro x _
      simp only [Bool.and_eq_true, decide_eq_true_eq]
      rintro ⟨⟨_, hxa⟩, ⟨_, hxL⟩⟩
      exact hnd.1 (hxa ▸ hxL)
    rw [hsplit, countP_on_at l a h, ih hnd.2]
    by_cases hOn : isOnB l a
    · simp only [hOn, if_true]
      omega
    · simp only [hOn, if_false]
      omega

theorem incs_eq_liveNeighborCount (l : CellMap) (h : KeysNodup l) (p : Coord) :
    incs l p = liveNeighborCount l p := by
  unfold incs liveNeighborCount
  rw [← List.countP_eq_length_filter]
  have hcong : ∀ x ∈ l,
      (decide (x.2 = CellState.On) && decide (p ∈ moore x.1)) = true ↔
        (decide (x.2 = CellState.On) && decide (x.1 ∈ moore p)) = true := by
    intro x _
    by_cases hx : p ∈ moore x.1
    · simp [hx, mem_moore_symm hx]
    · have hx2 : x.1 ∉ moore p := fun hh => hx (mem_moore_symm hh)
      simp [hx, hx2]
  rw [List.countP_congr hcong]
  exact countP_on_mem l h (moore p) (moore_nodup p)

/-! ### Characterisation of one generation step -/

theorem keysNodup_cons {β : Type} {e : Coord × β} {t : List (Coord × β)}
    (h : KeysNodup (e :: t)) : e.1 ∉ t.map Prod.fst ∧ KeysNodup t := by
  unfold KeysNodup at h ⊢
  rw [List.map_cons, List.nodup_cons] at h
  exact h

theorem isOn_iff (l : CellMap) (p : Coord) :
    isOn l p ↔ lookupKey p l = some CellState.On := by
  unfold isOn isOnB
  cases h : lookupKey p l with
  | none => simp
  | some st => cases st <;> simp

theorem lookup_of_mem {l : CellMap} {p : Coord} {v : CellState} (h : KeysNodup l)
    (hm : (p, v) ∈ l) : lookupKey p l = some v := by
  induction l with
  | nil => cases hm
  | cons e t ih =>
    obtain ⟨hkeys, ht⟩ := keysNodup_cons h
    rcases List.mem_cons.mp hm with he | hmt
    · rw [← he]
      simp [lookupKey]
    · by_cases hep : e.1 = p
      · exfalso
        apply hkeys
        rw [hep]
        exact List.mem_map_of_mem Prod.fst hmt
      · simp only [lookupKey, hep, if_false]
        exact ih ht hmt

/-- C1: after one `step()`, the live set is exactly the coordinates that
were Alive with 2 or 3 Alive Moore neighbours plus the coordinates that
were Dead with exactly 3 Alive Moore neighbours, every state and
neighbour count being taken from the pre-step grid. -/
theorem step_rule_correct (l : CellMap) (h : KeysNodup l) (p : Coord) :
    isOn (stepCells l) p ↔
      ((isOn l p ∧ (liveNeighborCount l p = 2 ∨ liveNeighborCount l p = 3)) ∨
        (¬ isOn l p ∧ liveNeighborCount l p = 3)) := by
  have hstep := lookup_foldl_applyRule (buildScores l) l (keysNodup_buildScores l) p
  have hsc := lookup_buildScores l p
  have hinc := incs_eq_liveNeighborCount l h p
  simp only [isOn_iff, ← hinc]
  unfold stepCells
  rw [hstep]
  by_cases hz : incs l p = 0
  · rw [if_neg (fun hh => hh hz)] at hsc
    by_cases hmem : (p, CellState.On) ∈ l
    · have hon : lookupKey p l = some CellState.On := lookup_of_mem h hmem
      rw [if_pos hmem] at hsc
      rw [hsc, hon]
      simp [ruleOut, lifeRuleB, hz]
    · rw [if_neg hmem] at hsc
      rw [hsc]
      have hno : ¬ lookupKey p l = some CellState.On := fun hh => hmem (mem_of_lookup hh)
      simp [hno, hz]
  · rw [if_pos hz] at hsc
    rw [hsc]
    cases hpl : lookupKey p l with
    | none =>
      by_cases h3 : incs l p = 3
      · simp [ruleOut, lifeRuleB, h3]
      · have h3z : ¬ ((incs l p : ℤ) = 3) := by exact_mod_cast h3
        simp [ruleOut, lifeRuleB, h3, h3z]
    | some st =>
      cases st with
      | On =>
        by_cases h23 : incs l p = 2 ∨ incs l p = 3
        · rcases h23 with h2 | h3
          · simp [ruleOut, lifeRuleB, h2]
          · simp [ruleOut, lifeRuleB, h3]
        · have h2 : ¬ incs l p = 2 := fun hh => h23 (Or.inl hh)
          have h3 : ¬ incs l p = 3 := fun hh => h23 (Or.inr hh)
          have h2z : ¬ ((incs l p : ℤ) = 2) := by exact_mod_cast h2
          have h3z : ¬ ((incs l p : ℤ) = 3) := by exact_mod_cast h3
          simp [ruleOut, lifeRuleB, h2, h3, h2z, h3z]
      | Off =>
        by_cases h3 : incs l p = 3
        · simp [ruleOut, lifeRuleB, h3]
        · have h3z : ¬ ((incs l p : ℤ) = 3) := by exact_mod_cast h3
          simp [ruleOut, lifeRuleB, h3, h3z]

/-- Witness for `step_rule_correct` at the blinker grid and the
coordinate (1,1), a Dead cell with exactly 3 Alive neighbours. -/
theorem step_rule_correct_witness :
    KeysNodup blinkerH ∧
      (isOn (stepCells blinkerH) (1, 1) ↔
        ((isOn blinkerH (1, 1) ∧
            (liveNeighborCount blinkerH (1, 1) = 2 ∨ liveNeighborCount blinkerH (1, 1) = 3)) ∨
          (¬ isOn blinkerH (1, 1) ∧ liveNeighborCount blinkerH (1, 1) = 3))) :=
  ⟨by decide, step_rule_correct blinkerH (by decide) (1, 1)⟩

/-! ### The in-place loop refines the atomic-rebuild step of the spec -/

theorem lookup_filter_map (g : Coord × ℤ → Bool) :
    ∀ (s : ScoreMap), KeysNodup s → ∀ p,
      (lookupKey p ((s.filter g).map (fun e => (e.1, CellState.On))) = some CellState.On ↔
        ∃ sc, lookupKey p s = some sc ∧ g (p, sc) = true) := by
  intro s
  induction s with
  | nil =>
    intro _ p
    simp [lookupKey]
  | cons e t ih =>
    intro hs p
    obtain ⟨k, v⟩ := e
    obtain ⟨hkeys, ht⟩ := keysNodup_cons hs
    by_cases hg : g (k, v) = true
    · rw [List.filter_cons_of_pos hg, List.map_cons]
      by_cases hkp : k = p
      · subst hkp
        constructor
        · intro _
          exact ⟨v, by simp [lookupKey], hg⟩
        · intro _
          simp [lookupKey]
      · have hstep : lookupKey p
            ((k, CellState.On) :: (t.filter g).map (fun e => (e.1, CellState.On))) =
            lookupKey p ((t.filter g).map (fun e => (e.1, CellState.On))) := by
          simp [lookupKey, hkp]
        have hl : lookupKey p ((k, v) :: t) = lookupKey p t := by
          simp [lookupKey, hkp]
        rw [hstep, ih ht p, hl]
    · rw [List.filter_cons_of_neg hg]
      rw [ih ht p]
      by_cases hkp : k = p
      · subst hkp
        have hnone : lookupKey k t = none :=
          lookup_none_of_not_mem_keys (by simpa using hkeys)
        have hcons : lookupKey k ((k, v) :: t) = some v := by
          simp [lookupKey]
        rw [hnone, hcons]
        constructor
        · rintro ⟨sc, hsc, _⟩
          exact Option.noConfusion hsc
        · rintro ⟨sc, hsc, hgsc⟩
          rw [Option.some.injEq] at hsc
          rw [← hsc] at hgsc
          exact absurd hgsc hg
      · have hl : lookupKey p ((k, v) :: t) = lookupKey p t := by
          simp [lookupKey, hkp]
        rw [hl]

/-- C2: the live set that the in-place rule-application loop of
`step()` leaves behind is exactly the live set of a reference step that
fully builds the next-generation set from the pre-step grid and swaps
it in atomically, so no rule evaluation observes a mixed
pre/post-step state. -/
theorem step_refines_atomic_rebuild (l : CellMap) (h : KeysNodup l) (p : Coord) :
    isOn (stepCells l) p ↔ isOn (specStep l) p := by
  rw [isOn_iff, isOn_iff]
  unfold specStep
  rw [lookup_filter_map _ (buildScores l) (keysNodup_buildScores l) p]
  unfold stepCells
  rw [lookup_foldl_applyRule _ _ (keysNodup_buildScores l) p]
  cases hsc : lookupKey p (buildScores l) with
  | none =>
    have hno : ¬ lookupKey p l = some CellState.On := by
      intro hon
      have hmem := mem_of_lookup hon
      rw [lookup_buildScores] at hsc
      by_cases hz : incs l p = 0
      · rw [if_neg (fun hh => hh hz), if_pos hmem] at hsc
        exact Option.noConfusion hsc
      · rw [if_pos hz] at hsc
        exact Option.noConfusion hsc
    simp [hno]
  | some sc =>
    simp only [ruleOut]
    constructor
    · intro hh
      by_cases hr : lifeRuleB (lookupKey p l) sc = true
      · exact ⟨sc, rfl, hr⟩
      · rw [if_neg hr] at hh
        exact Option.noConfusion hh
    · rintro ⟨sc2, hsc2, hr⟩
      rw [Option.some.injEq] at hsc2
      rw [← hsc2] at hr
      rw [if_pos hr]

/-- Witness for `step_refines_atomic_rebuild` at the blinker grid and
the coordinate (1,1). -/
theorem step_refines_atomic_rebuild_witness :
    KeysNodup blinkerH ∧
      (isOn (stepCells blinkerH) (1, 1) ↔ isOn (specStep blinkerH) (1, 1)) :=
  ⟨by decide, step_refines_atomic_rebuild blinkerH (by decide) (1, 1)⟩

/-! ### Iteration order does not matter -/

theorem keysNodup_perm {β : Type} {l1 l2 : List (Coord × β)} (hp : l1.Perm l2)
    (h : KeysNodup l1) : KeysNodup l2 :=
  ((hp.map Prod.fst).nodup_iff).mp h

theorem perm_lookup {β : Type} {l1 l2 : List (Coord × β)} (hperm : l1.Perm l2) :
    KeysNodup l1 → ∀ p, lookupKey p l1 = lookupKey p l2 := by
  induction hperm with
  | nil =>
    intro _ p
    rfl
  | cons e _ ih =>
    intro h p
    obtain ⟨_, ht⟩ := keysNodup_cons h
    by_cases hep : e.1 = p
    · simp [lookupKey, hep]
    · simp [lookupKey, hep, ih ht p]
  | swap x y t =>
    intro h p
    have hxy : ¬ y.1 = x.1 := by
      obtain ⟨hk, _⟩ := keysNodup_cons h
      intro he
      exact hk (by rw [he]; simp)
    by_cases hyp : y.1 = p
    · have hxp : ¬ x.1 = p := fun hh => hxy (hyp.trans hh.symm)
      simp [lookupKey, hyp, hxp]
    · by_cases hxp : x.1 = p
      · simp [lookupKey, hyp, hxp]
      · simp [lookupKey, hyp, hxp]
  | trans h12 _ ih12 ih23 =>
    intro h p
    rw [ih12 h p, ih23 (keysNodup_perm h12 h) p]

theorem incs_perm {l1 l2 : CellMap} (hp : l1.Perm l2) (p : Coord) :
    incs l1 p = incs l2 p := by
  unfold incs
  exact hp.countP_eq _

theorem buildScores_perm {l1 l2 : CellMap} (hp : l1.Perm l2) (p : Coord) :
    lookupKey p (buildScores l1) = lookupKey p (buildScores l2) := by
  rw [lookup_buildScores, lookup_buildScores, incs_perm hp p]
  by_cases hz : incs l2 p ≠ 0
  · rw [if_pos hz, if_pos hz]
  · rw [if_neg hz, if_neg hz]
    by_cases hm : (p, CellState.On) ∈ l1
    · rw [if_pos hm, if_pos (hp.mem_iff.mp hm)]
    · rw [if_neg hm, if_neg (fun hh => hm (hp.mem_iff.mpr hh))]

/-- C3: `step()` is deterministic.  A run is the rule-application loop
over any enumeration of the scoring map that the scoring loop builds
from any enumeration of the same live set: all such runs produce the
same resulting live set, whatever the hash-map iteration orders. -/
theorem step_deterministic (l1 l2 : CellMap) (s1 s2 : ScoreMap)
    (h1 : KeysNodup l1) (hl : l1.Perm l2)
    (hs1 : s1.Perm (buildScores l1)) (hs2 : s2.Perm (buildScores l2)) (p : Coord) :
    isOn (s1.foldl applyRule l1) p ↔ isOn (s2.foldl applyRule l2) p := by
  have hns1 : KeysNodup s1 := keysNodup_perm hs1.symm (keysNodup_buildScores l1)
  have hns2 : KeysNodup s2 := keysNodup_perm hs2.symm (keysNodup_buildScores l2)
  rw [isOn_iff, isOn_iff]
  rw [lookup_foldl_applyRule s1 l1 hns1 p, lookup_foldl_applyRule s2 l2 hns2 p]
  have hcell : lookupKey p l1 = lookupKey p l2 := perm_lookup hl h1 p
  have hsc : lookupKey p s1 = lookupKey p s2 := by
    rw [perm_lookup hs1 hns1 p, perm_lookup hs2 hns2 p]
    exact buildScores_perm hl p
  rw [hsc, hcell]

/-- Witness for `step_deterministic`: the blinker grid enumerated in
two different orders, with the second run also using a reversed
enumeration of its scoring map. -/
theorem step_deterministic_witness :
    KeysNodup blinkerH ∧
      blinkerH.Perm [((2, 0), CellState.On), ((0, 0), CellState.On), ((1, 0), CellState.On)] ∧
      ((buildScores [((2, 0), CellState.On), ((0, 0), CellState.On),
          ((1, 0), CellState.On)]).reverse).Perm
        (buildScores [((2, 0), CellState.On), ((0, 0), CellState.On), ((1, 0), CellState.On)]) ∧
      (isOn ((buildScores blinkerH).foldl applyRule blinkerH) (1, 1) ↔
        isOn (((buildScores [((2, 0), CellState.On), ((0, 0), CellState.On),
            ((1, 0), CellState.On)]).reverse).foldl applyRule
          [((2, 0), CellState.On), ((0, 0), CellState.On), ((1, 0), CellState.On)]) (1, 1)) :=
  ⟨by decide, by decide, by decide,
    step_deterministic blinkerH
      [((2, 0), CellState.On), ((0, 0), CellState.On), ((1, 0), CellState.On)]
      (buildScores blinkerH)
      ((buildScores [((2, 0), CellState.On), ((0, 0), CellState.On),
        ((1, 0), CellState.On)]).reverse)
      (by decide) (by decide) (List.Perm.refl _) (by decide) (1, 1)⟩

/-! ### The sparsity invariant -/

theorem eraseKey_sublist {β : Type} (k : Coord) (m : List (Coord × β)) :
    (eraseKey k m).Sublist m := by
  induction m with
  | nil => simp [eraseKey]
  | cons e t ih =>
    show (if e.1 = k then eraseKey k t else e :: eraseKey k t).Sublist (e :: t)
    by_cases hek : e.1 = k
    · rw [if_pos hek]
      exact ih.trans (List.sublist_cons_self e t)
    · rw [if_neg hek]
      exact ih.cons₂ e

theorem onlyOn_insertOn {l : CellMap} (h : OnlyOn l) (k : Coord) :
    OnlyOn (insertKey k CellState.On l) := by
  intro e he
  rcases List.mem_cons.mp he with he1 | he2
  · rw [he1]
  · exact h e ((eraseKey_sublist k l).subset he2)

theorem onlyOn_applyRule {l : CellMap} (h : OnlyOn l) (e : Coord × ℤ) :
    OnlyOn (applyRule l e) := by
  unfold applyRule
  show OnlyOn
    (if (lookupKey e.1 l = none ∨ lookupKey e.1 l = some CellState.Off) ∧ e.2 = 3 then
      insertKey e.1 CellState.On l
    else if lookupKey e.1 l = some CellState.On ∧ (e.2 = 2 ∨ e.2 = 3) then
      insertKey e.1 CellState.On l
    else if (lookupKey e.1 l).isSome = true then eraseKey e.1 l
    else l)
  split_ifs
  · exact onlyOn_insertOn h _
  · exact onlyOn_insertOn h _
  · intro x hx
    exact h x ((eraseKey_sublist _ l).subset hx)
  · exact h

theorem onlyOn_foldl_applyRule (s : ScoreMap) {l : CellMap} (h : OnlyOn l) :
    OnlyOn (s.foldl applyRule l) := by
  induction s generalizing l with
  | nil => exact h
  | cons e t ih => exact ih (onlyOn_applyRule h e)

/-- C4: every public mutation — `set_alive` (left-click insert),
`set_dead` (right-click remove) and `step()` — preserves the sparsity
invariant that the grid store only ever holds entries in the `On`
state, so absence of a coordinate always means Dead. -/
theorem mutations_preserve_sparsity (l : CellMap) (c : Coord) (h : OnlyOn l) :
    OnlyOn (set_alive l c) ∧ OnlyOn (set_dead l c) ∧ OnlyOn (stepCells l) :=
  ⟨onlyOn_insertOn h c,
    fun e he => h e ((eraseKey_sublist c l).subset he),
    onlyOn_foldl_applyRule _ h⟩

/-- Witness for `mutations_preserve_sparsity` at the blinker grid and
the coordinate (5,5). -/
theorem mutations_preserve_sparsity_witness :
    OnlyOn blinkerH ∧
      (OnlyOn (set_alive blinkerH (5, 5)) ∧ OnlyOn (set_dead blinkerH (5, 5)) ∧
        OnlyOn (stepCells blinkerH)) :=
  ⟨by decide, mutations_preserve_sparsity blinkerH (5, 5) (by decide)⟩

/-! ### Clock gating and pause semantics -/

theorem frame_no_tick (cells : CellMap) (a d : ℚ) (h : ¬ 1 / 10 < a + d) :
    frame ((⟨cells, true, a⟩ : World), 0) d = (⟨cells, true, a + d⟩, 0) := by
  unfold frame simulate ticked
  simp
  constructor
  · intro hc
    exfalso
    exact h (by linarith)
  · linarith [le_of_not_lt h]

theorem runFrames_no_step (cells : CellMap) (ds : List ℚ) :
    ∀ (a : ℚ), (∀ x ∈ ds, 0 ≤ x) → a + ds.sum ≤ 1 / 10 →
      runFrames ⟨cells, true, a⟩ ds = (⟨cells, true, a + ds.sum⟩, 0) := by
  induction ds with
  | nil =>
    intro a _ _
    simp [runFrames]
  | cons d t ih =>
    intro a hnn hsum
    rw [List.sum_cons] at hsum
    have ht : ∀ x ∈ t, 0 ≤ x := fun x hx => hnn x (List.mem_cons_of_mem _ hx)
    have htsum : 0 ≤ t.sum := List.sum_nonneg ht
    have hcond : ¬ 1 / 10 < a + d := by
      intro hlt
      linarith
    show (d :: t).foldl frame ((⟨cells, true, a⟩ : World), 0) = _
    rw [List.foldl_cons, frame_no_tick cells a d hcond]
    have := ih (a + d) ht (by linarith)
    unfold runFrames at this
    rw [this, List.sum_cons, add_assoc]

/-- C5: while Running, frame deltas summing to at most the 0.1s
threshold execute zero steps; the frame whose delta crosses the
threshold executes exactly one step, advancing the grid by exactly one
generation and resetting the accumulator to 0, no matter how far over
the threshold the accumulated time went. -/
theorem clock_gating (cells : CellMap) (ds : List ℚ) (d : ℚ)
    (hnn : ∀ x ∈ ds, 0 ≤ x) (hsum : ds.sum ≤ 1 / 10) (hcross : 1 / 10 < ds.sum + d) :
    (runFrames ⟨cells, true, 0⟩ ds).2 = 0 ∧
      (runFrames ⟨cells, true, 0⟩ (ds ++ [d])).2 = 1 ∧
      (runFrames ⟨cells, true, 0⟩ (ds ++ [d])).1.time_since_tick = 0 ∧
      (runFrames ⟨cells, true, 0⟩ (ds ++ [d])).1.cells = stepCells cells := by
  have h0 := runFrames_no_step cells ds 0 hnn (by linarith)
  have happ : runFrames ⟨cells, true, 0⟩ (ds ++ [d]) =
      frame (runFrames ⟨cells, true, 0⟩ ds) d := by
    unfold runFrames
    rw [List.foldl_append, List.foldl_cons, List.foldl_nil]
  rw [h0] at happ
  have hcond : 1 / 10 < 0 + ds.sum + d := by linarith
  have hframe : frame ((⟨cells, true, 0 + ds.sum⟩ : World), 0) d =
      (⟨stepCells cells, true, 0⟩, 1) := by
    unfold frame simulate ticked
    simp
    constructor
    · intro hc
      exfalso
      linarith
    · linarith
  rw [hframe] at happ
  refine ⟨by rw [h0], by rw [happ], by rw [happ], by rw [happ]⟩

/-- Witness for `clock_gating`: three frames of 0.03s then a lagged
frame of 0.5s on the blinker grid. -/
theorem clock_gating_witness :
    (∀ x ∈ ([3 / 100, 3 / 100, 3 / 100] : List ℚ), 0 ≤ x) ∧
      ([3 / 100, 3 / 100, 3 / 100] : List ℚ).sum ≤ 1 / 10 ∧
      1 / 10 < ([3 / 100, 3 / 100, 3 / 100] : List ℚ).sum + 1 / 2 ∧
      ((runFrames ⟨blinkerH, true, 0⟩ [3 / 100, 3 / 100, 3 / 100]).2 = 0 ∧
        (runFrames ⟨blinkerH, true, 0⟩ ([3 / 100, 3 / 100, 3 / 100] ++ [1 / 2])).2 = 1 ∧
        (runFrames ⟨blinkerH, true, 0⟩
            ([3 / 100, 3 / 100, 3 / 100] ++ [1 / 2])).1.time_since_tick = 0 ∧
        (runFrames ⟨blinkerH, true, 0⟩
            ([3 / 100, 3 / 100, 3 / 100] ++ [1 / 2])).1.cells = stepCells blinkerH) :=
  ⟨by norm_num, by norm_num, by norm_num,
    clock_gating blinkerH [3 / 100, 3 / 100, 3 / 100] (1 / 2)
      (by norm_num) (by norm_num) (by norm_num)⟩

/-- C6: while Paused, no step ever executes however much time
accumulates, the grid is untouched and the clock stays Paused, yet
every frame still adds its elapsed time to the accumulator. -/
theorem pause_no_step (cells : CellMap) (a : ℚ) (ds : List ℚ) :
    (runFrames ⟨cells, false, a⟩ ds).2 = 0 ∧
      (runFrames ⟨cells, false, a⟩ ds).1 = ⟨cells, false, a + ds.sum⟩ := by
  have H : ∀ (ts : List ℚ) (b : ℚ),
      runFrames ⟨cells, false, b⟩ ts = (⟨cells, false, b + ts.sum⟩, 0) := by
    intro ts
    induction ts with
    | nil =>
      intro b
      simp [runFrames]
    | cons d t ih =>
      intro b
      have hframe : frame ((⟨cells, false, b⟩ : World), 0) d = (⟨cells, false, b + d⟩, 0) := by
        unfold frame simulate ticked
        simp
      show (d :: t).foldl frame ((⟨cells, false, b⟩ : World), 0) = _
      rw [List.foldl_cons, hframe]
      have := ih (b + d)
      unfold runFrames at this
      rw [this, List.sum_cons, add_assoc]
  rw [H ds a]
  exact ⟨rfl, rfl⟩

/-! ### The blinker oscillates -/

theorem isOn_all_on {L : CellMap} (h : ∀ e ∈ L, e.2 = CellState.On) (p : Coord) :
    isOn L p ↔ p ∈ L.map Prod.fst := by
  induction L with
  | nil => simp [isOn, isOnB, lookupKey]
  | cons e t ih =>
    have he : e.2 = CellState.On := h e (List.mem_cons_self _ _)
    have ht : ∀ x ∈ t, x.2 = CellState.On := fun x hx => h x (List.mem_cons_of_mem _ hx)
    by_cases hep : e.1 = p
    · have hlk : lookupKey p (e :: t) = some CellState.On := by
        simp only [lookupKey, hep, if_pos]
        rw [he]
      rw [isOn_iff, hlk]
      simp only [List.map_cons, List.mem_cons]
      constructor
      · intro _
        exact Or.inl hep.symm
      · intro _
        trivial
    · have hlk : lookupKey p (e :: t) = lookupKey p t := by
        simp [lookupKey, hep]
      have hpe : ¬ p = e.1 := fun hh => hep hh.symm
      rw [isOn_iff, hlk, ← isOn_iff, ih ht]
      simp [List.map_cons, List.mem_cons, hpe]

/-- C7: the blinker at (0,0), (1,0), (2,0) becomes exactly the vertical
column (1,-1), (1,0), (1,1) after one `step()` and exactly the original
horizontal row again after a second `step()`. -/
theorem blinker_oscillates (p : Coord) :
    (isOn (stepCells blinkerH) p ↔ (p = (1, -1) ∨ p = (1, 0) ∨ p = (1, 1))) ∧
      (isOn (stepCells (stepCells blinkerH)) p ↔
        (p = (0, 0) ∨ p = (1, 0) ∨ p = (2, 0))) := by
  have h1 : stepCells blinkerH =
      [((1, -1), CellState.On), ((1, 0), CellState.On), ((1, 1), CellState.On)] := by
    decide
  have h2 : stepCells (stepCells blinkerH) = blinkerH := by
    decide
  constructor
  · rw [h1, isOn_all_on (by decide)]
    simp
  · rw [h2, isOn_all_on (by decide)]
    simp [blinkerH]

/-! ### Editing is idempotent -/

/-- C8: inserting the same coordinate twice with `set_alive` leaves the
same store as inserting it once, and `set_dead` on an absent coordinate
is a no-op. -/
theorem edit_idempotent (l : CellMap) (c : Coord) :
    set_alive (set_alive l c) c = set_alive l c ∧
      (lookupKey c l = none → set_dead l c = l) ∧
      (¬ isOn l c → ∀ p, isOn (set_dead l c) p ↔ isOn l p) := by
  refine ⟨?_, ?_, ?_⟩
  · unfold set_alive insertKey
    have hh : eraseKey c ((c, CellState.On) :: eraseKey c l) = eraseKey c (eraseKey c l) := by
      simp [eraseKey]
    rw [hh, erase_erase]
  · intro h
    unfold set_dead
    exact erase_of_lookup_none h
  · intro hno p
    rw [isOn_iff, isOn_iff]
    unfold set_dead
    rw [lookup_erase]
    by_cases hcp : c = p
    · subst hcp
      rw [if_pos rfl]
      constructor
      · intro hh
        exact Option.noConfusion hh
      · intro hh
        exact absurd ((isOn_iff l c).mpr hh) hno
    · rw [if_neg hcp]

/-- Witness for `edit_idempotent` at the blinker grid and the absent
coordinate (9,9). -/
theorem edit_idempotent_witness :
    lookupKey (9, 9) blinkerH = none ∧
      ¬ isOn blinkerH (9, 9) ∧
      (set_alive (set_alive blinkerH (9, 9)) (9, 9) = set_alive blinkerH (9, 9) ∧
        (lookupKey (9, 9) blinkerH = none → set_dead blinkerH (9, 9) = blinkerH) ∧
        (¬ isOn blinkerH (9, 9) → ∀ p, isOn (set_dead blinkerH (9, 9)) p ↔ isOn blinkerH p)) ∧
      set_dead blinkerH (9, 9) = blinkerH :=
  ⟨by decide, by decide, edit_idempotent blinkerH (9, 9),
    (edit_idempotent blinkerH (9, 9)).2.1 (by decide)⟩

/-! ### No 64-bit overflow in the neighbour offsets -/

/-- C9: for any grid whose Alive cells have coordinates strictly
between the minimum and maximum 64-bit signed integers, none of the
eight `±1` Moore-offset computations that the scoring loop performs
wraps around mod 2^64. -/
theorem neighbor_offsets_no_overflow (l : CellMap)
    (hb : ∀ e ∈ l, e.2 = CellState.On →
      -(2 ^ 63) < e.1.1 ∧ e.1.1 < 2 ^ 63 - 1 ∧ -(2 ^ 63) < e.1.2 ∧ e.1.2 < 2 ^ 63 - 1) :
    ∀ e ∈ l, e.2 = CellState.On → ∀ d ∈ mooreOffsets,
      wrap64 (e.1.1 + d.1) = e.1.1 + d.1 ∧ wrap64 (e.1.2 + d.2) = e.1.2 + d.2 := by
  intro e he hOn d hd
  obtain ⟨h1, h2, h3, h4⟩ := hb e he hOn
  have hd1 : d.1 = -1 ∨ d.1 = 0 ∨ d.1 = 1 := by
    fin_cases hd <;> decide
  have hd2 : d.2 = -1 ∨ d.2 = 0 ∨ d.2 = 1 := by
    fin_cases hd <;> decide
  constructor
  · unfold wrap64
    rcases hd1 with h | h | h <;> rw [h] <;> omega
  · unfold wrap64
    rcases hd2 with h | h | h <;> rw [h] <;> omega

/-- Witness for `neighbor_offsets_no_overflow` at a one-cell grid at
the origin. -/
theorem neighbor_offsets_no_overflow_witness :
    (∀ e ∈ ([((0, 0), CellState.On)] : CellMap), e.2 = CellState.On →
        -(2 ^ 63) < e.1.1 ∧ e.1.1 < 2 ^ 63 - 1 ∧ -(2 ^ 63) < e.1.2 ∧ e.1.2 < 2 ^ 63 - 1) ∧
      (∀ e ∈ ([((0, 0), CellState.On)] : CellMap), e.2 = CellState.On →
        ∀ d ∈ mooreOffsets,
          wrap64 (e.1.1 + d.1) = e.1.1 + d.1 ∧ wrap64 (e.1.2 + d.2) = e.1.2 + d.2) :=
  ⟨by decide, neighbor_offsets_no_overflow [((0, 0), CellState.On)] (by decide)⟩

/-! ### The transient scores stay within 0..8 -/

theorem keysNodup_sublist {β : Type} {m1 m2 : List (Coord × β)}
    (hs : m1.Sublist m2) (h : KeysNodup m2) : KeysNodup m1 :=
  (hs.map Prod.fst).nodup h

theorem incs_le_eight (l : CellMap) (h : KeysNodup l) (p : Coord) :
    incs l p ≤ 8 := by
  rw [incs_eq_liveNeighborCount l h p]
  unfold liveNeighborCount
  have hlen : (moore p).length = 8 := by
    simp [moore, mooreOffsets]
  calc ((moore p).filter (fun q => isOnB l q)).length ≤ (moore p).length :=
        List.length_filter_le _ _
    _ = 8 := hlen

theorem incs_append (la lb : CellMap) (p : Coord) :
    incs (la ++ lb) p = incs la p + incs lb p := by
  unfold incs
  exact List.countP_append _ la lb

/-- C10: at every moment of the scoring loop of `step()` — after any
prefix of the grid entries, and in the middle of the eight bump
operations of the entry being processed — every value stored in the
transient scoring map lies between 0 and 8, so the 8-bit counter of the
Rust code never overflows on increment. -/
theorem scores_bounded (l l1 l2 : CellMap) (h : KeysNodup l) (hsplit : l = l1 ++ l2) :
    (∀ p sc, lookupKey p (l1.foldl scoreCell []) = some sc → 0 ≤ sc ∧ sc ≤ 8) ∧
      (∀ q c t ds1 ds2, l2 = (q, c) :: t → c = CellState.On →
        mooreOffsets = ds1 ++ ds2 → ∀ p sc,
          lookupKey p
              (ds1.foldl (fun acc d => bump acc (q.1 + d.1, q.2 + d.2))
                (l1.foldl scoreCell [])) = some sc →
          0 ≤ sc ∧ sc ≤ 8) := by
  have h1 : KeysNodup l1 := by
    rw [hsplit] at h
    unfold KeysNodup at h ⊢
    rw [List.map_append] at h
    exact (List.sublist_append_left _ _).nodup h
  have hchar := lookup_buildScores l1
  constructor
  · intro p sc hlook
    rw [show l1.foldl scoreCell [] = buildScores l1 from rfl, hchar p] at hlook
    by_cases hz : incs l1 p = 0
    · rw [if_neg (fun hh => hh hz)] at hlook
      by_cases hm : (p, CellState.On) ∈ l1
      · rw [if_pos hm] at hlook
        cases hlook
        exact ⟨le_refl 0, by norm_num⟩
      · rw [if_neg hm] at hlook
        exact Option.noConfusion hlook
    · rw [if_pos hz] at hlook
      cases hlook
      refine ⟨by positivity, ?_⟩
      exact_mod_cast incs_le_eight l1 h1 p
  · intro q c t ds1 ds2 hl2 hc hds p sc hlook
    have hnodupMid : KeysNodup (l1 ++ [(q, CellState.On)]) := by
      apply keysNodup_sublist _ h
      rw [hsplit, hl2, hc]
      exact ((List.nil_sublist t).cons₂ (q, CellState.On)).append_left l1
    have hfold : ds1.foldl (fun acc d => bump acc (q.1 + d.1, q.2 + d.2))
        (l1.foldl scoreCell []) =
        (ds1.map (fun d => (q.1 + d.1, q.2 + d.2))).foldl bump (l1.foldl scoreCell []) := by
      rw [List.foldl_map]
    rw [hfold, lookup_foldl_bump] at hlook
    have hcnt : cnt (ds1.map (fun d => (q.1 + d.1, q.2 + d.2))) p ≤
        cnt (moore q) p := by
      unfold cnt
      apply List.Sublist.countP_le
      apply List.Sublist.map
      rw [hds]
      exact List.sublist_append_left ds1 ds2
    have hmid : incs l1 p + cnt (moore q) p ≤ 8 := by
      have : incs (l1 ++ [(q, CellState.On)]) p = incs l1 p +
          (if p ∈ moore q then 1 else 0) := by
        rw [incs_append]
        congr 1
        unfold incs
        rw [List.countP_cons, List.countP_nil]
        by_cases hpm : p ∈ moore q <;> simp [hpm]
      have h8 := incs_le_eight _ hnodupMid p
      rw [this] at h8
      rw [cnt_moore]
      by_cases hpm : p ∈ moore q
      · rw [if_pos hpm]
        rw [if_pos hpm] at h8
        omega
      · rw [if_neg hpm]
        rw [if_neg hpm] at h8
        omega
    rw [show l1.foldl scoreCell [] = buildScores l1 from rfl, hchar p] at hlook
    by_cases hz : incs l1 p = 0
    · rw [if_neg (fun hh => hh hz)] at hlook
      by_cases hm : (p, CellState.On) ∈ l1
      · rw [if_pos hm] at hlook
        unfold optAdd at hlook
        by_cases hn : cnt (ds1.map (fun d => (q.1 + d.1, q.2 + d.2))) p = 0
        · rw [if_pos hn] at hlook
          cases hlook
          exact ⟨le_refl 0, by norm_num⟩
        · rw [if_neg hn] at hlook
          cases hlook
          constructor
          · simp only [Option.getD_some, Option.getD_none]
            positivity
          · have : cnt (ds1.map (fun d => (q.1 + d.1, q.2 + d.2))) p ≤ 8 := by
              rw [hz] at hmid
              omega
            simpa using (by exact_mod_cast this :
              ((cnt (ds1.map (fun d => (q.1 + d.1, q.2 + d.2))) p : ℤ) ≤ 8))
      · rw [if_neg hm] at hlook
        unfold optAdd at hlook
        by_cases hn : cnt (ds1.map (fun d => (q.1 + d.1, q.2 + d.2))) p = 0
        · rw [if_pos hn] at hlook
          exact Option.noConfusion hlook
        · rw [if_neg hn] at hlook
          cases hlook
          constructor
          · simp only [Option.getD_some, Option.getD_none]
            positivity
          · have : cnt (ds1.map (fun d => (q.1 + d.1, q.2 + d.2))) p ≤ 8 := by
              rw [hz] at hmid
              omega
            simpa using (by exact_mod_cast this :
              ((cnt (ds1.map (fun d => (q.1 + d.1, q.2 + d.2))) p : ℤ) ≤ 8))
    · rw [if_pos hz] at hlook
      unfold optAdd at hlook
      by_cases hn : cnt (ds1.map (fun d => (q.1 + d.1, q.2 + d.2))) p = 0
      · rw [if_pos hn] at hlook
        cases hlook
        refine ⟨by positivity, ?_⟩
        exact_mod_cast incs_le_eight l1 h1 p
      · rw [if_neg hn] at hlook
        cases hlook
        constructor
        · simp only [Option.getD_some, Option.getD_none]
          positivity
        · have hle : incs l1 p + cnt (ds1.map (fun d => (q.1 + d.1, q.2 + d.2))) p ≤ 8 := by
            have := hcnt
            omega
          have : ((incs l1 p : ℤ)) + (cnt (ds1.map (fun d => (q.1 + d.1, q.2 + d.2))) p : ℤ) ≤ 8 := by
            exact_mod_cast hle
          simpa using this

/-- Witness for `scores_bounded`: the blinker grid split after its
first two entries, with the stored score 2 at coordinate (1,1) checked
against the bound. -/
theorem scores_bounded_witness :
    KeysNodup blinkerH ∧
      blinkerH =
        [((0, 0), CellState.On), ((1, 0), CellState.On)] ++ [((2, 0), CellState.On)] ∧
      ((∀ p sc,
          lookupKey p
              (([((0, 0), CellState.On), ((1, 0), CellState.On)] : CellMap).foldl
                scoreCell []) = some sc →
          0 ≤ sc ∧ sc ≤ 8) ∧
        (∀ q c t ds1 ds2,
          ([((2, 0), CellState.On)] : CellMap) = (q, c) :: t → c = CellState.On →
          mooreOffsets = ds1 ++ ds2 → ∀ p sc,
            lookupKey p
                (ds1.foldl (fun acc d => bump acc (q.1 + d.1, q.2 + d.2))
                  (([((0, 0), CellState.On), ((1, 0), CellState.On)] : CellMap).foldl
                    scoreCell [])) = some sc →
            0 ≤ sc ∧ sc ≤ 8)) ∧
      lookupKey (1, 1)
          (([((0, 0), CellState.On), ((1, 0), CellState.On)] : CellMap).foldl
            scoreCell []) = some 2 :=
  ⟨by decide, by decide,
    scores_bounded blinkerH
      [((0, 0), CellState.On), ((1, 0), CellState.On)] [((2, 0), CellState.On)]
      (by decide) (by decide),
    by decide⟩

end Life
